import Mathlib

/-!
Verification of the page-ordering data model of `order_in_yaml_frontmatter`.

The definitions below are a shallow embedding of `src/page.rs` and `src/app.rs`:
`Page` and the list operations (`sort_and_fix`, `toggle_value`, `swap_with_value`,
`substituteValue`, `overwriteFrontmatter`) mirror the Rust functions statement by
statement.  Rust's in-place mutation of `PageList` is modelled by returning the
new list, paired with the error (if any) of the `Result`-returning operations.
Machine integers (`i64` values, `usize` indices) are modelled by `Int` and `Nat`;
the programme's values stay far below the overflow range, except for the one
`usize` wrap-around that is modelled explicitly (`usizePred`).
-/

namespace OrderInYaml

/-- Model of the subset of `yaml_rust::Yaml` used by the programme.  Hash keys are
modelled as strings, because every key the programme reads or writes is a string
(`Yaml::String(key)` in the source); a linked hash map is modelled as an
association list in insertion order. -/
inductive Yaml where
  | int (n : Int)
  | str (s : String)
  | bool (b : Bool)
  | null
  | bad
  | arr (elems : List Yaml)
  | hash (entries : List (String × Yaml))

/-- Model of `Page` (src/page.rs): file path, front matter, current value of the
configured key, the value captured at load time, and the display title. -/
structure Page where
  path : String
  yaml : Yaml
  value : Option Int
  value_old : Option Int
  title : Option String

/-- `page.set_value(v)` from the getset-generated setter. -/
def Page.setValue (p : Page) (v : Option Int) : Page := { p with value := v }

/-- Rust's `i64::cmp`. -/
def cmpInt (a b : Int) : Ordering :=
  if a < b then .lt else if a = b then .eq else .gt

/-- The comparator closure passed to `sort_by` in `PageList::sort_and_fix`:
`Some` values compare by `i64::cmp`, `Some` is less than `None`, two `None`s
are equal. -/
def cmpPages (a b : Page) : Ordering :=
  match a.value, b.value with
  | some x, some y => cmpInt x y
  | some _, none => .lt
  | none, some _ => .gt
  | none, none => .eq

/-- The non-strict relation induced by the comparator.  `Vec::sort_by` is a
stable sort; for a total preorder the stable sorted result is unique, so the
stable `List.insertionSort` over this relation models it: `insertionSort`
inserts every element after all strictly smaller ones and before equal ones,
keeping equal elements in their original relative order. -/
def pageLE (a b : Page) : Prop := cmpPages a b ≠ Ordering.gt

instance : DecidableRel pageLE := fun a b => by unfold pageLE; infer_instance

/-- The sorting pass of `PageList::sort_and_fix`. -/
def sortPages (l : List Page) : List Page := List.insertionSort pageLE l

/-- The renumbering pass of `PageList::sort_and_fix`: scan left to right with a
counter starting at `c`; each page holding a `Some` value is overwritten with
the counter, which is then incremented. -/
def renumberFrom (c : Int) : List Page → List Page
  | [] => []
  | p :: ps =>
    match p.value with
    | some _ => p.setValue (some c) :: renumberFrom (c + 1) ps
    | none => p :: renumberFrom c ps

/-- Model of `PageList::sort_and_fix` (src/page.rs lines 183-204). -/
def sort_and_fix (l : List Page) : List Page := renumberFrom 0 (sortPages l)

/-- The two error messages `toggle_value` / `swap_with_value` can bail with,
normalised to the spec's error names. -/
inductive PageErr where
  | indexOutOfRange
  | noSuchNeighbor
deriving DecidableEq

/-- The `pre_value` accumulator loop of `toggle_value`: the value of the last
`Some` page in the given prefix, defaulting to 0 (the source initialises
`let mut pre_value = 0`). -/
def lastSomeValue (l : List Page) : Int :=
  l.foldl (fun acc p => match p.value with | some x => x | none => acc) 0

/-- The suffix-shift loops of `toggle_value`: add `d` to a `Some` value. -/
def shiftValue (d : Int) (p : Page) : Page :=
  match p.value with
  | some v => p.setValue (some (v + d))
  | none => p

/-- Model of `PageList::toggle_value` (src/page.rs lines 207-240).  The first
component is the vector after the call (unchanged when the call bails), the
second is the error of the returned `Result`. -/
def toggle_value (l : List Page) (idx : Nat) : List Page × Option PageErr :=
  match l[idx]? with
  | none => (l, some .indexOutOfRange)
  | some page =>
    match page.value with
    | some _ =>
      let l1 := l.set idx (page.setValue none)
      (l1.take (idx + 1) ++ (l1.drop (idx + 1)).map (shiftValue (-1)), none)
    | none =>
      let pre_value := lastSomeValue (l.take idx)
      let l1 := l.set idx (page.setValue (some (pre_value + 1)))
      (l1.take (idx + 1) ++ (l1.drop (idx + 1)).map (shiftValue 1), none)

inductive SwapDirection where
  | prev
  | next
deriving DecidableEq

/-- `Vec::swap` on valid indices. -/
def listSwap (l : List Page) (i j : Nat) : List Page :=
  match l[i]?, l[j]? with
  | some a, some b => (l.set i b).set j a
  | _, _ => l

/-- The body of `swap_with_value` after the bounds checks: exchange the two
`value`s when both are `Some`, then physically swap the entries. -/
def swapCore (l : List Page) (idx nIdx : Nat) : List Page :=
  let l1 :=
    match l[idx]?, l[nIdx]? with
    | some p, some q =>
      match p.value, q.value with
      | some _, some _ => (l.set idx (p.setValue q.value)).set nIdx (q.setValue p.value)
      | _, _ => l
    | _, _ => l
  listSwap l1 idx nIdx

/-- Model of `PageList::swap_with_value` (src/page.rs lines 243-274). -/
def swap_with_value (l : List Page) (idx : Nat) (dir : SwapDirection) :
    List Page × Option PageErr :=
  if l.length ≤ idx then (l, some .indexOutOfRange)
  else
    match dir with
    | .prev =>
      if idx = 0 then (l, some .noSuchNeighbor) else (swapCore l idx (idx - 1), none)
    | .next =>
      if idx = l.length - 1 then (l, some .noSuchNeighbor)
      else (swapCore l idx (idx + 1), none)

/-- The neighbour index chosen by a swap direction, as an integer (used to state
range conditions). -/
def neighborIdx (idx : Nat) (dir : SwapDirection) : Int :=
  match dir with
  | .prev => (idx : Int) - 1
  | .next => (idx : Int) + 1

/-- The neighbour index as the `usize` the source computes after its checks. -/
def neighborNat (idx : Nat) (dir : SwapDirection) : Nat :=
  match dir with
  | .prev => idx - 1
  | .next => idx + 1

/-- A page as produced by `Page::try_new` for a file whose front matter is an
empty mapping and carries the given key value (`value_old = value`). -/
def mkPage (path : String) (v : Option Int) : Page :=
  { path := path, yaml := .hash [], value := v, value_old := v, title := none }

/-- Claim C1 failing input, step 1: a single unordered document is a fixed point
of construction-time `sort_and_fix`. -/
theorem density_bug_construction :
    sort_and_fix [mkPage "a" none] = [mkPage "a" none] := rfl

/--
C1: the density invariant fails on the code.  On the constructed collection
`[mkPage "a" none]` (zero ordered documents, so the `Some` value set is the
empty range), a single successful `toggleValue 0` makes the `Some` value set
`{1}`, not the claimed `{0}`: `pre_value` is initialised to 0 rather than -1,
so the first ordered document receives value 1.
-/
theorem density_invariant_violated :
    sort_and_fix [mkPage "a" none] = [mkPage "a" none] ∧
    (toggle_value [mkPage "a" none] 0).2 = none ∧
    ((toggle_value [mkPage "a" none] 0).1.map (fun p => p.value)) = [some 1] ∧
    [some (1 : Int)] ≠ [some 0] :=
  ⟨rfl, rfl, rfl, by decide⟩

/--
C2: `toggleValue` on a `None` document with no ordered predecessor.  The claim
says the document receives (-1) + 1 = 0 and the later ordered document is
incremented to 1, i.e. values `[some 0, some 1]`; the code instead assigns
`pre_value + 1` with `pre_value` initialised to 0, producing `[some 1, some 1]`.
-/
theorem toggle_insertion_value_bug :
    (toggle_value [mkPage "a" none, mkPage "b" (some 0)] 0).2 = none ∧
    ((toggle_value [mkPage "a" none, mkPage "b" (some 0)] 0).1.map (fun p => p.value)) =
      [some 1, some 1] ∧
    [some (1 : Int), some 1] ≠ [some 0, some 1] :=
  ⟨rfl, rfl, by decide⟩

/--
C3: toggling twice does not restore the state.  On the constructed collection
`[mkPage "a" (some 0)]`, the first `toggleValue 0` unsets the value and the
second re-assigns `some 1` (not the original `some 0`), because `pre_value`
starts at 0 instead of -1.
-/
theorem toggle_twice_not_restore :
    sort_and_fix [mkPage "a" (some 0)] = [mkPage "a" (some 0)] ∧
    (toggle_value [mkPage "a" (some 0)] 0).2 = none ∧
    (toggle_value (toggle_value [mkPage "a" (some 0)] 0).1 0).2 = none ∧
    ((toggle_value (toggle_value [mkPage "a" (some 0)] 0).1 0).1.map (fun p => p.value)) =
      [some 1] ∧
    ([mkPage "a" (some 0)].map (fun p => p.value)) = [some 0] ∧
    [some (1 : Int)] ≠ [some 0] :=
  ⟨rfl, rfl, rfl, rfl, rfl, by decide⟩

/--
C5 counterexample: Scenario A as claimed is false.  With documents a, b, c in
file order carrying values `None`, `some 1`, `some 0`, construction does not
produce `[b ↦ 0, c ↦ 1, a ↦ None]`.
-/
theorem scenarioA_claim_false :
    ((sort_and_fix [mkPage "a" none, mkPage "b" (some 1), mkPage "c" (some 0)]).map
        (fun p => (p.path, p.value))) ≠
      [("b", some 0), ("c", some 1), ("a", none)] := by
  decide

/--
C5 amended: construction sorts ascending by the initial value, so document c
(initial value 0) comes first and is renumbered 0, then b (initial value 1)
renumbered 1, then the unordered a: `[c ↦ 0, b ↦ 1, a ↦ None]`.
-/
theorem scenarioA_amended :
    ((sort_and_fix [mkPage "a" none, mkPage "b" (some 1), mkPage "c" (some 0)]).map
        (fun p => (p.path, p.value))) =
      [("c", some 0), ("b", some 1), ("a", none)] := by
  decide

theorem cmpInt_ne_gt (a b : Int) : cmpInt a b ≠ Ordering.gt ↔ a ≤ b := by
  unfold cmpInt
  split_ifs with h1 h2 <;> simp <;> omega

theorem pageLE_total : ∀ a b : Page, pageLE a b ∨ pageLE b a := by
  intro a b
  unfold pageLE cmpPages
  rcases ha : a.value with _ | x <;> rcases hb : b.value with _ | y <;>
    simp [cmpInt_ne_gt]
  all_goals omega

theorem pageLE_trans : ∀ a b c : Page, pageLE a b → pageLE b c → pageLE a c := by
  intro a b c
  unfold pageLE cmpPages
  rcases ha : a.value with _ | x <;> rcases hb : b.value with _ | y <;>
    rcases hc : c.value with _ | z <;> simp [cmpInt_ne_gt]
  all_goals omega

instance : IsTotal Page pageLE := ⟨pageLE_total⟩

instance : IsTrans Page pageLE := ⟨pageLE_trans⟩

theorem sortPages_sorted (l : List Page) : (sortPages l).Sorted pageLE :=
  List.sorted_insertionSort pageLE l

theorem sortPages_perm (l : List Page) : (sortPages l).Perm l :=
  List.perm_insertionSort pageLE l

theorem pairwise_getElem? {α : Type} {R : α → α → Prop} {l : List α}
    (hl : l.Pairwise R) {i j : Nat} {a b : α} (hij : i < j)
    (hi : l[i]? = some a) (hj : l[j]? = some b) : R a b := by
  rw [List.getElem?_eq_some] at hi hj
  obtain ⟨hi1, hi2⟩ := hi
  obtain ⟨hj1, hj2⟩ := hj
  subst hi2
  subst hj2
  exact List.pairwise_iff_getElem.mp hl i j hi1 hj1 hij

theorem filter_isNone_orderedInsert (a : Page) (l : List Page) :
    (List.orderedInsert pageLE a l).filter (fun p => p.value.isNone) =
      if a.value.isNone then a :: l.filter (fun p => p.value.isNone)
      else l.filter (fun p => p.value.isNone) := by
  induction l with
  | nil => by_cases h : a.value.isNone <;> simp [List.orderedInsert, h]
  | cons b t ih =>
    by_cases hr : pageLE a b
    · have hstep : List.orderedInsert pageLE a (b :: t) = a :: b :: t := by
        simp [List.orderedInsert, hr]
      rw [hstep]
      by_cases ha2 : a.value.isNone <;> simp [List.filter_cons, ha2]
    · have hgt : cmpPages a b = Ordering.gt := by
        by_contra hc
        exact hr hc
      have hstep : List.orderedInsert pageLE a (b :: t) = b :: List.orderedInsert pageLE a t := by
        simp [List.orderedInsert, hr]
      have hbf : b.value.isNone = false := by
        rcases ha : a.value with _ | x <;> rcases hbv : b.value with _ | y <;>
          unfold cmpPages at hgt <;> rw [ha, hbv] at hgt <;> simp_all
      rw [hstep]
      simp [List.filter_cons, hbf, ih]

theorem filter_isNone_sortPages (l : List Page) :
    (sortPages l).filter (fun p => p.value.isNone) = l.filter (fun p => p.value.isNone) := by
  induction l with
  | nil => rfl
  | cons a t ih =>
    have ih2 : (List.insertionSort pageLE t).filter (fun p => p.value.isNone) =
        t.filter (fun p => p.value.isNone) := ih
    show (List.orderedInsert pageLE a (List.insertionSort pageLE t)).filter _ = _
    rw [filter_isNone_orderedInsert, ih2]
    by_cases ha : a.value.isNone <;> simp [List.filter_cons, ha]

theorem map_add_range (c : Int) (n : Nat) :
    (List.range (n + 1)).map (fun (m : Nat) => c + (m : Int)) =
      c :: (List.range n).map (fun (m : Nat) => (c + 1) + (m : Int)) := by
  induction n with
  | zero => simp [List.range_succ]
  | succ n ih =>
    rw [List.range_succ, List.map_append, ih, List.range_succ, List.map_append,
      List.cons_append]
    simp only [List.map_cons, List.map_nil]
    congr 3
    push_cast
    ring

theorem renumberFrom_filterMap (c : Int) (l : List Page) :
    (renumberFrom c l).filterMap (fun p => p.value) =
      (List.range (l.countP (fun p => p.value.isSome))).map (fun (m : Nat) => c + (m : Int)) := by
  induction l generalizing c with
  | nil => simp [renumberFrom]
  | cons p t ih =>
    rcases hv : p.value with _ | v
    · simp [renumberFrom, hv, List.filterMap_cons, List.countP_cons, ih]
    · simp only [renumberFrom, hv]
      rw [List.filterMap_cons]
      simp only [Page.setValue]
      rw [List.countP_cons]
      simp only [hv, Option.isSome_some, if_true]
      rw [map_add_range]
      simp [ih]

theorem renumberFrom_map_path (c : Int) (l : List Page) :
    (renumberFrom c l).map (fun p => p.path) = l.map (fun p => p.path) := by
  induction l generalizing c with
  | nil => rfl
  | cons p t ih => rcases hv : p.value with _ | v <;> simp [renumberFrom, hv, Page.setValue, ih]

/--
C4: `sort_and_fix` sorts the sequence (a permutation of the input) so that among
`Some` documents values are non-decreasing in sequence order and a strictly
smaller value always comes strictly earlier (so for distinct values, `Some a`
precedes `Some b` iff `a < b`), every `Some` document precedes every `None`
document, and the `None` documents keep their stable relative order; the
renumbering pass then gives the ordered documents the values `0..k-1` in
sequence order (where `k` counts the `Some` documents) and moves no document.
-/
theorem sort_and_fix_spec (l : List Page) :
    (sortPages l).Perm l
    ∧ (∀ (i j : Nat) (pa pb : Page), i < j →
        (sortPages l)[i]? = some pa → (sortPages l)[j]? = some pb →
        ∀ a b, pa.value = some a → pb.value = some b → a ≤ b)
    ∧ (∀ (i j : Nat) (pa pb : Page),
        (sortPages l)[i]? = some pa → (sortPages l)[j]? = some pb →
        ∀ a b, pa.value = some a → pb.value = some b → a < b → i < j)
    ∧ (∀ (i j : Nat) (pa pb : Page), i < j →
        (sortPages l)[i]? = some pa → (sortPages l)[j]? = some pb →
        pa.value = none → pb.value = none)
    ∧ (sortPages l).filter (fun p => p.value.isNone) = l.filter (fun p => p.value.isNone)
    ∧ (sort_and_fix l).filterMap (fun p => p.value) =
        (List.range (l.countP (fun p => p.value.isSome))).map (fun (m : Nat) => (m : Int))
    ∧ (sort_and_fix l).map (fun p => p.path) = (sortPages l).map (fun p => p.path) := by
  have hsorted := sortPages_sorted l
  refine ⟨sortPages_perm l, ?_, ?_, ?_, filter_isNone_sortPages l, ?_, renumberFrom_map_path 0 _⟩
  · intro i j pa pb hij hi hj a b hva hvb
    have hle := pairwise_getElem? hsorted hij hi hj
    unfold pageLE cmpPages at hle
    rw [hva, hvb] at hle
    exact (cmpInt_ne_gt a b).mp hle
  · intro i j pa pb hi hj a b hva hvb hab
    rcases Nat.lt_trichotomy i j with h | h | h
    · exact h
    · subst h
      rw [hi] at hj
      injection hj with hj
      subst hj
      rw [hva] at hvb
      injection hvb with hvb
      omega
    · have hle := pairwise_getElem? hsorted h hj hi
      unfold pageLE cmpPages at hle
      rw [hva, hvb] at hle
      rw [cmpInt_ne_gt] at hle
      omega
  · intro i j pa pb hij hi hj hva
    have hle := pairwise_getElem? hsorted hij hi hj
    unfold pageLE cmpPages at hle
    rw [hva] at hle
    rcases hvb : pb.value with _ | y
    · rfl
    · rw [hvb] at hle
      simp at hle
  · rw [sort_and_fix, renumberFrom_filterMap]
    rw [(sortPages_perm l).countP_eq]
    exact List.map_congr_left fun n _ => zero_add _

def demoList : List Page := [mkPage "a" none, mkPage "b" (some 1), mkPage "c" (some 0)]

def demoNones : List Page := [mkPage "a" none, mkPage "b" none]

/-- Witness for C4: the sortedness, strict-order and None-suffix components of
`sort_and_fix_spec` instantiated on concrete collections. -/
theorem sort_and_fix_spec_witness :
    ((0 : Int) ≤ 1) ∧ (0 < 1) ∧ (mkPage "b" none).value = none :=
  ⟨(sort_and_fix_spec demoList).2.1 0 1 (mkPage "c" (some 0)) (mkPage "b" (some 1))
      (by decide) rfl rfl 0 1 rfl rfl,
   (sort_and_fix_spec demoList).2.2.1 0 1 (mkPage "c" (some 0)) (mkPage "b" (some 1))
      rfl rfl 0 1 rfl rfl (by decide),
   (sort_and_fix_spec demoNones).2.2.2.1 0 1 (mkPage "a" none) (mkPage "b" none)
      (by decide) rfl rfl rfl⟩

theorem listSwap_eq (l : List Page) (i j : Nat) (a b : Page)
    (ha : l[i]? = some a) (hb : l[j]? = some b) :
    listSwap l i j = (l.set i b).set j a := by
  unfold listSwap
  rw [ha, hb]

theorem swapCore_eq (l : List Page) (i j : Nat) (hne : i ≠ j) (p q : Page)
    (hp : l[i]? = some p) (hq : l[j]? = some q) :
    swapCore l i j =
      if p.value.isSome ∧ q.value.isSome then
        (l.set i (q.setValue p.value)).set j (p.setValue q.value)
      else (l.set i q).set j p := by
  have hi : i < l.length := (List.getElem?_eq_some.mp hp).1
  have hj : j < l.length := (List.getElem?_eq_some.mp hq).1
  rcases hpv : p.value with _ | v <;> rcases hqv : q.value with _ | w
  · have hcore : swapCore l i j = listSwap l i j := by
      simp [swapCore, hp, hq, hpv, hqv]
    rw [hcore, listSwap_eq l i j p q hp hq, if_neg (by simp [hpv])]
  · have hcore : swapCore l i j = listSwap l i j := by
      simp [swapCore, hp, hq, hpv, hqv]
    rw [hcore, listSwap_eq l i j p q hp hq, if_neg (by simp [hpv])]
  · have hcore : swapCore l i j = listSwap l i j := by
      simp [swapCore, hp, hq, hpv, hqv]
    rw [hcore, listSwap_eq l i j p q hp hq, if_neg (by simp [hqv])]
  · have hcore : swapCore l i j =
        listSwap ((l.set i (p.setValue q.value)).set j (q.setValue p.value)) i j := by
      simp [swapCore, hp, hq, hpv, hqv]
    have h1 : ((l.set i (p.setValue q.value)).set j (q.setValue p.value))[i]? =
        some (p.setValue q.value) := by
      rw [List.getElem?_set_ne hne.symm, List.getElem?_set_self hi]
    have h2 : ((l.set i (p.setValue q.value)).set j (q.setValue p.value))[j]? =
        some (q.setValue p.value) := by
      rw [List.getElem?_set_self (by simpa using hj)]
    rw [hcore, listSwap_eq _ i j _ _ h1 h2, if_pos (by simp [hpv, hqv])]
    have e1 : ((l.set i (p.setValue q.value)).set j (q.setValue p.value)).set i
          (q.setValue p.value) =
        (l.set i (q.setValue p.value)).set j (q.setValue p.value) := by
      rw [List.set_comm _ _ _ hne.symm, List.set_set]
    rw [e1, List.set_set, hpv, hqv]

/--
C6 (amended): `swap_with_value` fails with `IndexOutOfRange` iff `idx ≥ length`;
it fails with `NoSuchNeighbor` iff `idx < length` and the neighbour index falls
outside `[0, length)`; the collection is unchanged on any error; and on success
it always physically swaps the two entries' positions, exchanging their two
values exactly when both are `Some` and leaving both values untouched otherwise.
-/
theorem swap_with_value_spec (l : List Page) (idx : Nat) (dir : SwapDirection) :
    ((swap_with_value l idx dir).2 = some PageErr.indexOutOfRange ↔ l.length ≤ idx)
    ∧ ((swap_with_value l idx dir).2 = some PageErr.noSuchNeighbor ↔
        idx < l.length ∧ (neighborIdx idx dir < 0 ∨ (l.length : Int) ≤ neighborIdx idx dir))
    ∧ (∀ e, (swap_with_value l idx dir).2 = some e → (swap_with_value l idx dir).1 = l)
    ∧ ((swap_with_value l idx dir).2 = none →
        ∀ p q, l[idx]? = some p → l[neighborNat idx dir]? = some q →
          (swap_with_value l idx dir).1 =
            if p.value.isSome ∧ q.value.isSome then
              (l.set idx (q.setValue p.value)).set (neighborNat idx dir) (p.setValue q.value)
            else (l.set idx q).set (neighborNat idx dir) p) := by
  unfold swap_with_value
  by_cases hlen : l.length ≤ idx
  · rw [if_pos hlen]
    refine ⟨⟨fun _ => hlen, fun _ => rfl⟩, ?_, fun e _ => rfl, by intro h; simp at h⟩
    constructor
    · intro h
      simp at h
    · intro h
      omega
  · rw [if_neg hlen]
    rcases dir with _ | _
    · by_cases h0 : idx = 0
      · subst h0
        rw [if_pos rfl]
        refine ⟨?_, ?_, fun e _ => rfl, by intro h; simp at h⟩
        · constructor
          · intro h
            simp at h
          · intro h
            omega
        · simp only [neighborIdx]
          exact ⟨fun _ => ⟨by omega, Or.inl (by norm_num)⟩, fun _ => by trivial⟩
      · rw [if_neg h0]
        refine ⟨?_, ?_, ?_, ?_⟩
        · constructor
          · intro h
            simp at h
          · intro h
            omega
        · simp only [neighborIdx]
          constructor
          · intro h
            simp at h
          · intro h
            omega
        · intro e he
          simp at he
        · intro _ p q hp hq
          exact swapCore_eq l idx (idx - 1) (by omega) p q hp hq
    · by_cases h0 : idx = l.length - 1
      · rw [if_pos h0]
        refine ⟨?_, ?_, fun e _ => rfl, by intro h; simp at h⟩
        · constructor
          · intro h
            simp at h
          · intro h
            omega
        · simp only [neighborIdx]
          exact ⟨fun _ => ⟨by omega, Or.inr (by omega)⟩, fun _ => by trivial⟩
      · rw [if_neg h0]
        refine ⟨?_, ?_, ?_, ?_⟩
        · constructor
          · intro h
            simp at h
          · intro h
            omega
        · simp only [neighborIdx]
          constructor
          · intro h
            simp at h
          · intro h
            omega
        · intro e he
          simp at he
        · intro _ p q hp hq
          exact swapCore_eq l idx (idx + 1) (by omega) p q hp hq

def demoSingle : List Page := [mkPage "a" (some 0)]

def demoPair : List Page := [mkPage "a" (some 0), mkPage "b" (some 1)]

/--
C6 counterexample: the claim as stated is false.  At `demoSingle` (length 1),
`idx = 2`, direction `Next`, the neighbour index 3 falls outside `[0, 1)`, so
the claim requires the call to fail with `NoSuchNeighbor`; the code fails with
`IndexOutOfRange` (the `idx >= len` check fires first).
-/
theorem swap_error_claim_counterexample :
    (neighborIdx 2 SwapDirection.next < 0 ∨
      (demoSingle.length : Int) ≤ neighborIdx 2 SwapDirection.next) ∧
    (swap_with_value demoSingle 2 SwapDirection.next).2 = some PageErr.indexOutOfRange ∧
    ¬(swap_with_value demoSingle 2 SwapDirection.next).2 = some PageErr.noSuchNeighbor :=
  ⟨Or.inr (by norm_num [neighborIdx, demoSingle]), rfl, by decide⟩

/-- Witness for C6: the unchanged-on-error and success components of
`swap_with_value_spec` applied at concrete inputs. -/
theorem swap_with_value_spec_witness :
    (swap_with_value demoPair 5 SwapDirection.next).1 = demoPair ∧
    (swap_with_value demoPair 0 SwapDirection.next).1 =
      (if (mkPage "a" (some 0)).value.isSome ∧ (mkPage "b" (some 1)).value.isSome then
        (demoPair.set 0 ((mkPage "b" (some 1)).setValue (mkPage "a" (some 0)).value)).set 1
          ((mkPage "a" (some 0)).setValue (mkPage "b" (some 1)).value)
      else (demoPair.set 0 (mkPage "b" (some 1))).set 1 (mkPage "a" (some 0))) :=
  ⟨(swap_with_value_spec demoPair 5 SwapDirection.next).2.2.1 PageErr.indexOutOfRange rfl,
   (swap_with_value_spec demoPair 0 SwapDirection.next).2.2.2 rfl
     (mkPage "a" (some 0)) (mkPage "b" (some 1)) rfl rfl⟩

/-- Strip one trailing carriage return (the CRLF handling of `BufRead::lines`). -/
def stripCr (l : List Char) : List Char :=
  if l.getLast? = some '\r' then l.dropLast else l

/-- Split a character stream at LF characters; the final chunk is the (possibly
empty) text after the last LF. -/
def chunksNl : List Char → List (List Char)
  | [] => [[]]
  | c :: rest =>
    if c = '\n' then [] :: chunksNl rest
    else
      match chunksNl rest with
      | [] => [[c]]
      | h :: t => (c :: h) :: t

/-- Model of `BufRead::lines`: LF-terminated chunks with the terminator (and a
preceding CR) removed; a final unterminated chunk is returned as is; content
ending in LF yields no final empty line. -/
def rustLines (cs : List Char) : List (List Char) :=
  let c := chunksNl cs
  c.dropLast.map stripCr ++
    match c.getLast? with
    | some [] => []
    | some lastChunk => [lastChunk]
    | none => []

/-- The `end_yaml` scan of `Page::overwrite_frontmatter`: drop every line up to
and including the first line equal to the closing delimiter; if no such line
exists nothing is kept. -/
def afterDelimLines : List (List Char) → List (List Char)
  | [] => []
  | l :: ls => if l = ['-', '-', '-'] then ls else afterDelimLines ls

/-- `writeln!` applied to each line: every line is re-terminated with a single LF. -/
def joinWriteln (ls : List (List Char)) : List Char :=
  (ls.map (fun l => l ++ ['\n'])).flatten

mutual

/-- A simple deterministic stand-in for the external YAML value serializer
(front-matter serialization is an external collaborator of the programme; only
the fact that some serialized block is emitted matters to the claims). -/
def emitVal : Yaml → String
  | .int n => toString n
  | .str s => s
  | .bool b => toString b
  | .null => "~"
  | .bad => "~"
  | .arr elems => "[" ++ emitList elems ++ "]"
  | .hash entries => "\x7b" ++ emitEntries entries ++ "\x7d"

def emitList : List Yaml → String
  | [] => ""
  | [y] => emitVal y
  | y :: ys => emitVal y ++ ", " ++ emitList ys

def emitEntries : List (String × Yaml) → String
  | [] => ""
  | [(k, v)] => k ++ ": " ++ emitVal v
  | (k, v) :: es => k ++ ": " ++ emitVal v ++ ", " ++ emitEntries es

end

/-- Model of `YamlEmitter::dump`: a document-start marker followed by the
top-level mapping rendered one entry per line. -/
def emitYaml (y : Yaml) : String :=
  "---" ++
    match y with
    | .hash entries => String.join (entries.map (fun e => "\n" ++ e.1 ++ ": " ++ emitVal e.2))
    | _ => "\n" ++ emitVal y

/-- The content rewrite of `Page::overwrite_frontmatter` (src/page.rs lines
108-129): the serialized front matter, then `writeln!("\n---")`, then every
line after the first closing-delimiter line (the first file line is skipped
unconditionally), each re-terminated with LF. -/
def overwriteContent (y : Yaml) (content : List Char) : List Char :=
  (emitYaml y).toList ++ '\n' :: '-' :: '-' :: '-' :: '\n' ::
    joinWriteln (afterDelimLines ((rustLines content).drop 1))

/-- The file system as a path-to-content map. -/
abbrev FS := List (String × List Char)

def fsGet (fs : FS) (path : String) : Option (List Char) :=
  (fs.find? (fun e => e.1 = path)).map (fun e => e.2)

def fsSet (fs : FS) (path : String) (content : List Char) : FS :=
  (path, content) :: fs.filter (fun e => e.1 ≠ path)

/-- Model of `Page::overwrite_frontmatter` against the file system: a page whose
value equals the value captured at load time is skipped entirely; otherwise its
file is read (a missing file is the fatal I/O error, `none`) and overwritten
with the rewritten content. -/
def Page.overwriteFrontmatter (p : Page) (fs : FS) : Option FS :=
  if p.value ≠ p.value_old then
    match fsGet fs p.path with
    | none => none
    | some content => some (fsSet fs p.path (overwriteContent p.yaml content))
  else some fs

/-- Model of `PageList::overwrite_frontmatter` (src/page.rs lines 285-290):
sequential writes, the first failure aborting the rest. -/
def overwriteFrontmatterList : List Page → FS → Option FS
  | [], fs => some fs
  | p :: ps, fs =>
    match p.overwriteFrontmatter fs with
    | none => none
    | some fs1 => overwriteFrontmatterList ps fs1

theorem fsGet_fsSet_ne (fs : FS) (p q : String) (c : List Char) (h : p ≠ q) :
    fsGet (fsSet fs p c) q = fsGet fs q := by
  unfold fsGet fsSet
  rw [List.find?_cons_of_neg _ (by simp [h])]
  congr 1
  induction fs with
  | nil => rfl
  | cons e t ih =>
    by_cases he : e.1 = p
    · rw [List.filter_cons_of_neg (by simp [he]), List.find?_cons_of_neg _ (by simp [he, h])]
      exact ih
    · rw [List.filter_cons_of_pos (by simp [he])]
      by_cases heq : e.1 = q
      · rw [List.find?_cons_of_pos _ (by simp [heq]), List.find?_cons_of_pos _ (by simp [heq])]
      · rw [List.find?_cons_of_neg _ (by simp [heq]), List.find?_cons_of_neg _ (by simp [heq])]
        exact ih

theorem overwriteFrontmatterList_frame (l : List Page) (fs fs' : FS) (path : String)
    (hrun : overwriteFrontmatterList l fs = some fs')
    (hsame : ∀ q ∈ l, q.path = path → q.value = q.value_old) :
    fsGet fs' path = fsGet fs path := by
  induction l generalizing fs with
  | nil =>
    unfold overwriteFrontmatterList at hrun
    injection hrun with hrun
    rw [hrun]
  | cons p t ih =>
    unfold overwriteFrontmatterList at hrun
    rcases h1 : p.overwriteFrontmatter fs with _ | fs1
    · rw [h1] at hrun
      cases hrun
    · rw [h1] at hrun
      have step : fsGet fs1 path = fsGet fs path := by
        unfold Page.overwriteFrontmatter at h1
        by_cases hv : p.value ≠ p.value_old
        · rw [if_pos hv] at h1
          rcases h2 : fsGet fs p.path with _ | content
          · rw [h2] at h1
            cases h1
          · rw [h2] at h1
            injection h1 with h1
            have hne : p.path ≠ path := by
              intro hh
              exact hv (hsame p (List.mem_cons_self p t) hh)
            rw [← h1]
            exact fsGet_fsSet_ne fs p.path path _ hne
        · rw [if_neg hv] at h1
          injection h1 with h1
          rw [h1]
      rw [← step]
      exact ih fs1 hrun (fun q hq => hsame q (List.mem_cons_of_mem p hq))

/--
C7: write-avoidance of `persist`.  A single page whose value equals the value
captured at load time is skipped and the file system is untouched; and over a
whole collection, any path whose pages all carry an unchanged value keeps its
file content, even when other pages change and are rewritten.
-/
theorem persist_write_avoidance :
    (∀ (p : Page) (fs : FS), p.value = p.value_old → p.overwriteFrontmatter fs = some fs)
    ∧ (∀ (l : List Page) (fs fs' : FS) (path : String),
        overwriteFrontmatterList l fs = some fs' →
        (∀ q ∈ l, q.path = path → q.value = q.value_old) →
        fsGet fs' path = fsGet fs path) :=
  ⟨fun p fs h => by
      unfold Page.overwriteFrontmatter
      rw [if_neg (by simp [h])],
   fun l fs fs' path hrun hsame => overwriteFrontmatterList_frame l fs fs' path hrun hsame⟩

/-- A minimal front-matter file: opening delimiter line, closing delimiter line. -/
def cSimple : List Char := '-' :: '-' :: '-' :: '\n' :: '-' :: '-' :: '-' :: '\n' :: []

/-- A page whose value changed after load (so `persist` rewrites it). -/
def pChanged : Page :=
  { path := "b", yaml := .hash [], value := some 0, value_old := some 1, title := none }

def demoFS : FS := [("a", cSimple), ("b", cSimple)]

def demoFS2 : FS := [("b", cSimple), ("a", cSimple)]

/-- Witness for C7: in a run where page "b" changed and is rewritten, the file
of the unchanged page "a" keeps its content. -/
theorem persist_write_avoidance_witness :
    (mkPage "a" (some 0)).overwriteFrontmatter demoFS = some demoFS ∧
    overwriteFrontmatterList [mkPage "a" (some 0), pChanged] demoFS = some demoFS2 ∧
    fsGet demoFS2 "a" = fsGet demoFS "a" :=
  ⟨persist_write_avoidance.1 (mkPage "a" (some 0)) demoFS rfl, rfl,
   persist_write_avoidance.2 [mkPage "a" (some 0), pChanged] demoFS demoFS2 "a" rfl
     (by decide)⟩

theorem chunksNl_append_line (l rest : List Char) (hl : '\n' ∉ l) :
    chunksNl (l ++ '\n' :: rest) = l :: chunksNl rest := by
  induction l with
  | nil => simp [chunksNl]
  | cons c t ih =>
    have hc : ¬(c = '\n') := by
      intro h
      exact hl (by simp [h])
    have ht : '\n' ∉ t := fun h => hl (List.mem_cons_of_mem c h)
    rw [List.cons_append]
    rw [chunksNl]
    rw [if_neg hc, ih ht]

theorem chunksNl_joinWriteln (lines : List (List Char)) (h : ∀ l ∈ lines, '\n' ∉ l) :
    chunksNl (joinWriteln lines) = lines ++ [[]] := by
  induction lines with
  | nil => rfl
  | cons l ls ih =>
    have hstep : joinWriteln (l :: ls) = l ++ '\n' :: joinWriteln ls := by
      simp [joinWriteln]
    rw [hstep, chunksNl_append_line _ _ (h l (List.mem_cons_self l ls)),
      ih (fun x hx => h x (List.mem_cons_of_mem l hx)), List.cons_append]

theorem stripCr_eq_self (l : List Char) (h : l.getLast? ≠ some '\r') : stripCr l = l := by
  unfold stripCr
  rw [if_neg h]

theorem rustLines_joinWriteln (lines : List (List Char))
    (h : ∀ l ∈ lines, '\n' ∉ l ∧ l.getLast? ≠ some '\r') :
    rustLines (joinWriteln lines) = lines := by
  unfold rustLines
  rw [chunksNl_joinWriteln lines (fun l hl => (h l hl).1)]
  have hmap : lines.map stripCr = lines := by
    have h2 : lines.map stripCr = lines.map id :=
      List.map_congr_left (fun l hl => stripCr_eq_self l (h l hl).2)
    rw [h2, List.map_id]
  simp only [List.dropLast_concat, List.getLast?_concat, hmap]
  simp

theorem afterDelimLines_append (fmLines bodyLines : List (List Char))
    (h : ∀ l ∈ fmLines, l ≠ ['-', '-', '-']) :
    afterDelimLines (fmLines ++ ['-', '-', '-'] :: bodyLines) = bodyLines := by
  induction fmLines with
  | nil => simp [afterDelimLines]
  | cons l ls ih =>
    rw [List.cons_append]
    unfold afterDelimLines
    rw [if_neg (h l (List.mem_cons_self l ls))]
    exact ih (fun x hx => h x (List.mem_cons_of_mem l hx))

/--
C8 (amended): for a rewritten document whose file consists of the opening
delimiter line, LF-terminated CR-free front-matter lines none of which equals
the closing delimiter, the closing delimiter line and an LF-terminated CR-free
body, the new content is the serialized front-matter block, a line holding just
the closing delimiter, and the original body byte for byte.  (In general the
body is reproduced line by line with every line re-terminated by a single LF,
so CRLF endings and a missing final newline are normalised, not preserved.)
-/
theorem overwrite_body_lines_spec (y : Yaml) (fmLines bodyLines : List (List Char))
    (hfm : ∀ l ∈ fmLines, '\n' ∉ l ∧ l.getLast? ≠ some '\r')
    (hbody : ∀ l ∈ bodyLines, '\n' ∉ l ∧ l.getLast? ≠ some '\r')
    (hnd : ∀ l ∈ fmLines, l ≠ ['-', '-', '-']) :
    overwriteContent y
        (joinWriteln ((['-', '-', '-'] :: fmLines) ++ ['-', '-', '-'] :: bodyLines)) =
      (emitYaml y).toList ++ '\n' :: '-' :: '-' :: '-' :: '\n' :: joinWriteln bodyLines := by
  unfold overwriteContent
  have hall : ∀ l ∈ (['-', '-', '-'] :: fmLines) ++ ['-', '-', '-'] :: bodyLines,
      '\n' ∉ l ∧ l.getLast? ≠ some '\r' := by
    intro l hl
    simp only [List.cons_append, List.mem_cons, List.mem_append] at hl
    rcases hl with rfl | hl
    · exact ⟨by decide, by decide⟩
    · rcases hl with hl | hl
      · exact hfm l hl
      · rcases hl with rfl | hl
        · exact ⟨by decide, by decide⟩
        · exact hbody l hl
  rw [rustLines_joinWriteln _ hall, List.cons_append, List.drop_one, List.tail_cons,
    afterDelimLines_append fmLines bodyLines hnd]

/-- Witness for C8: the amended statement evaluated on the concrete file
`---\na: 1\n---\nbody\n` with an empty front-matter mapping. -/
theorem overwrite_body_lines_witness :
    overwriteContent (Yaml.hash [])
        (joinWriteln ((['-', '-', '-'] :: [['a', ':', ' ', '1']]) ++
          ['-', '-', '-'] :: [['b', 'o', 'd', 'y']])) =
      (emitYaml (Yaml.hash [])).toList ++ '\n' :: '-' :: '-' :: '-' :: '\n' ::
        joinWriteln [['b', 'o', 'd', 'y']] :=
  overwrite_body_lines_spec (Yaml.hash []) [['a', ':', ' ', '1']] [['b', 'o', 'd', 'y']]
    (by decide) (by decide) (by decide)

/-- Drop the first line of a character stream (through the first LF). -/
def dropLine : List Char → List Char
  | [] => []
  | c :: rest => if c = '\n' then rest else dropLine rest

/-- The first line of a character stream (up to the first LF). -/
def takeLine : List Char → List Char
  | [] => []
  | c :: rest => if c = '\n' then [] else c :: takeLine rest

/-- Fuelled scan for the first closing-delimiter line; `origBody` always
supplies enough fuel, the fuel merely keeps the recursion structural. -/
def bodyScan : Nat → List Char → List Char
  | 0, _ => []
  | _ + 1, [] => []
  | fuel + 1, c :: rest =>
    if stripCr (takeLine (c :: rest)) = ['-', '-', '-'] then dropLine (c :: rest)
    else bodyScan fuel (dropLine (c :: rest))

/-- The claim's "original body text": everything after the first
closing-delimiter line that follows the opening line. -/
def origBody (cs : List Char) : List Char :=
  bodyScan (cs.length + 1) (dropLine cs)

def content0 : List Char := "---\na: 1\n---\nbody".toList

/--
C8 counterexample: the claim as stated is false.  For the rewritten page
`pChanged` and the file `---\na: 1\n---\nbody` (body not newline-terminated),
the original body text after the closing-delimiter line is `body`, but the new
content ends in `body\n`: the body is re-terminated with LF, not reproduced
byte for byte.
-/
theorem overwrite_verbatim_counterexample :
    pChanged.value ≠ pChanged.value_old ∧
    origBody content0 = "body".toList ∧
    overwriteContent pChanged.yaml content0 ≠
      (emitYaml pChanged.yaml).toList ++ '\n' :: '-' :: '-' :: '-' :: '\n' ::
        origBody content0 ∧
    overwriteContent pChanged.yaml content0 =
      (emitYaml pChanged.yaml).toList ++ '\n' :: '-' :: '-' :: '-' :: '\n' ::
        "body\n".toList :=
  ⟨by decide, by decide, by decide, by decide⟩

def hashHasKey (h : List (String × Yaml)) (k : String) : Bool :=
  h.any (fun e => e.1 = k)

/-- `LinkedHashMap::insert`: replace the value in place when the key exists,
else append a new entry. -/
def hashInsert (h : List (String × Yaml)) (k : String) (v : Yaml) : List (String × Yaml) :=
  if hashHasKey h k then h.map (fun e => if e.1 = k then (e.1, v) else e) else h ++ [(k, v)]

/-- `LinkedHashMap::remove`. -/
def hashRemove (h : List (String × Yaml)) (k : String) : List (String × Yaml) :=
  h.filter (fun e => e.1 ≠ k)

def hashLookup (h : List (String × Yaml)) (k : String) : Option Yaml :=
  (h.find? (fun e => e.1 = k)).map (fun e => e.2)

/-- Lookup of a key in a YAML value, defined only on mappings. -/
def yamlLookup : Yaml → String → Option Yaml
  | .hash h, k => hashLookup h k
  | _, _ => none

/-- Model of `Page::substitute_value` (src/page.rs lines 96-107): on a mapping,
insert the ordering key with the integer value or remove the entry; on anything
else the source hits `panic!()`, modelled as `none` (a trap, not an error
return). -/
def Page.substituteValue (key : String) (p : Page) : Option Page :=
  match p.yaml with
  | .hash h =>
    match p.value with
    | some v => some { p with yaml := .hash (hashInsert h key (.int v)) }
    | none => some { p with yaml := .hash (hashRemove h key) }
  | _ => none

/-- Model of `PageList::substitute_value` (src/page.rs lines 277-282): every
page in order; a trap on any page traps the whole operation. -/
def substituteValueList (key : String) : List Page → Option (List Page)
  | [] => some []
  | p :: ps =>
    match Page.substituteValue key p with
    | none => none
    | some p1 =>
      match substituteValueList key ps with
      | none => none
      | some ps1 => some (p1 :: ps1)

theorem hashLookup_insert_self (h : List (String × Yaml)) (k : String) (v : Yaml) :
    hashLookup (hashInsert h k v) k = some v := by
  unfold hashInsert
  by_cases hk : hashHasKey h k
  · rw [if_pos hk]
    unfold hashHasKey at hk
    rw [List.any_eq_true] at hk
    obtain ⟨e, he, hek⟩ := hk
    induction h with
    | nil => cases he
    | cons e1 t ih =>
      by_cases h1 : e1.1 = k
      · unfold hashLookup
        rw [List.map_cons, if_pos h1, List.find?_cons_of_pos _ (by simp [h1])]
        rfl
      · unfold hashLookup
        rw [List.map_cons, if_neg h1, List.find?_cons_of_neg _ (by simp [h1])]
        rcases List.mem_cons.mp he with rfl | he2
        · simp at hek
          exact absurd hek h1
        · exact ih he2
  · rw [if_neg hk]
    unfold hashHasKey at hk
    rw [Bool.not_eq_true, List.any_eq_false] at hk
    induction h with
    | nil =>
      unfold hashLookup
      rw [List.nil_append, List.find?_cons_of_pos _ (by simp)]
      rfl
    | cons e1 t ih =>
      have h1 : ¬(e1.1 = k) := by
        have := hk e1 (List.mem_cons_self e1 t)
        simpa using this
      unfold hashLookup
      rw [List.cons_append, List.find?_cons_of_neg _ (by simp [h1])]
      exact ih (fun x hx => hk x (List.mem_cons_of_mem e1 hx))

theorem hashLookup_remove_self (h : List (String × Yaml)) (k : String) :
    hashLookup (hashRemove h k) k = none := by
  unfold hashLookup hashRemove
  rw [Option.map_eq_none', List.find?_eq_none]
  intro e he
  have := List.of_mem_filter he
  simpa using this

/--
C10: `substituteValue` is not total at the public interface.  On every page
whose front matter is a YAML mapping it sets the ordering-key entry to the
integer value when the page's value is `Some v` and removes the entry when the
value is `None`; on a page whose front matter is not a mapping (e.g. a list)
it traps (`none`, modelling the `panic!()`) instead of returning an error, and
one such page traps the whole collection operation.
-/
theorem substitute_value_spec :
    (∀ (key : String) (p : Page) (h : List (String × Yaml)), p.yaml = Yaml.hash h →
      ((∀ v, p.value = some v →
          (Page.substituteValue key p).map (fun p1 => yamlLookup p1.yaml key) =
            some (some (Yaml.int v)))
        ∧ (p.value = none →
          (Page.substituteValue key p).map (fun p1 => yamlLookup p1.yaml key) = some none)))
    ∧ (∀ (key : String) (p : Page), (∀ h, p.yaml ≠ Yaml.hash h) →
        Page.substituteValue key p = none)
    ∧ (∀ (key : String) (l : List Page) (p : Page), p ∈ l → (∀ h, p.yaml ≠ Yaml.hash h) →
        substituteValueList key l = none) := by
  refine ⟨?_, ?_, ?_⟩
  · intro key p h hy
    constructor
    · intro v hv
      unfold Page.substituteValue
      rw [hy, hv]
      simp only [Option.map_some']
      rw [show yamlLookup (Yaml.hash (hashInsert h key (Yaml.int v))) key =
          hashLookup (hashInsert h key (Yaml.int v)) key from rfl]
      rw [hashLookup_insert_self]
    · intro hv
      unfold Page.substituteValue
      rw [hy, hv]
      simp only [Option.map_some']
      rw [show yamlLookup (Yaml.hash (hashRemove h key)) key =
          hashLookup (hashRemove h key) key from rfl]
      rw [hashLookup_remove_self]
  · intro key p hp
    unfold Page.substituteValue
    rcases hy : p.yaml with n | s | b | _ | _ | elems | entries
    · rfl
    · rfl
    · rfl
    · rfl
    · rfl
    · rfl
    · exact absurd hy (hp entries)
  · intro key l p hmem hp
    induction l with
    | nil => cases hmem
    | cons q t ih =>
      rcases List.mem_cons.mp hmem with rfl | hmem2
      · have hnone : Page.substituteValue key p = none := by
          unfold Page.substituteValue
          rcases hy : p.yaml with n | s | b | _ | _ | elems | entries
          · rfl
          · rfl
          · rfl
          · rfl
          · rfl
          · rfl
          · exact absurd hy (hp entries)
        unfold substituteValueList
        rw [hnone]
      · unfold substituteValueList
        rcases hq : Page.substituteValue key q with _ | q1
        · rfl
        · rw [ih hmem2]

/-- A page whose front matter is a YAML list, not a mapping. -/
def pArr : Page :=
  { path := "c", yaml := .arr [], value := none, value_old := none, title := none }

/-- Witness for C10: the mapping cases (set and remove) and the trap cases of
`substitute_value_spec` at concrete pages. -/
theorem substitute_value_spec_witness :
    ((Page.substituteValue "k" (mkPage "a" (some 3))).map
        (fun p1 => yamlLookup p1.yaml "k") = some (some (Yaml.int 3)))
    ∧ ((Page.substituteValue "k" (mkPage "a" none)).map
        (fun p1 => yamlLookup p1.yaml "k") = some none)
    ∧ Page.substituteValue "k" pArr = none
    ∧ substituteValueList "k" [pArr] = none :=
  ⟨(substitute_value_spec.1 "k" (mkPage "a" (some 3)) [] rfl).1 3 rfl,
   (substitute_value_spec.1 "k" (mkPage "a" none) [] rfl).2 rfl,
   substitute_value_spec.2.1 "k" pArr (fun h hh => by cases hh),
   substitute_value_spec.2.2 "k" [pArr] pArr (List.mem_cons_self pArr [])
     (fun h hh => by cases hh)⟩

/-- The interaction states of `App` (src/app.rs): `unpicked`/`picked` are the
browsing and reordering modes, `askQuit`/`askSave` the confirmation prompts,
`quit` the terminal state. -/
inductive Status where
  | unpicked
  | picked
  | askQuit
  | askSave
  | quit
deriving DecidableEq

/-- The input events the controller distinguishes: a character key, the arrow
keys it handles, and any other key. -/
inductive Key where
  | char (c : Char)
  | up
  | down
  | other
deriving DecidableEq

/-- Model of `App`: the collection with its configured ordering key, the cursor,
and the current and remembered states.  Rendering-only fields are omitted. -/
structure App where
  page_list : List Page
  key : String
  selected_idx : Nat
  current_status : Status
  previous_status : Status

/-- `App::update_status`: remember the current state, move to the new one. -/
def App.updateStatus (a : App) (s : Status) : App :=
  { a with previous_status := a.current_status, current_status := s }

/-- `usize` subtraction by one with wrap-around, as in `self.page_list.len() - 1`
(which wraps on an empty list). -/
def usizePred (n : Nat) : Nat := (n + (2 ^ 64 - 1)) % 2 ^ 64

/-- Model of `App::unpicked` (the Unordered-state handler).  A `None` result is
a propagated fatal error. -/
def App.unpickedStep (a : App) (fs : FS) (k : Key) : Option (App × FS) :=
  if k = .char 'q' then some (a.updateStatus .askQuit, fs)
  else if k = .char 's' then some (a.updateStatus .askSave, fs)
  else if k = .char 'i' ∨ k = .up then
    let a1 := a.updateStatus .unpicked
    some (if a1.selected_idx ≠ 0 then { a1 with selected_idx := a1.selected_idx - 1 } else a1,
      fs)
  else if k = .char 'k' ∨ k = .down then
    let a1 := a.updateStatus .unpicked
    some (if a1.selected_idx ≠ usizePred a1.page_list.length then
        { a1 with selected_idx := a1.selected_idx + 1 }
      else a1, fs)
  else if k = .char 'x' then
    match toggle_value a.page_list a.selected_idx with
    | (_, some _) => none
    | (l1, none) => some ({ a with page_list := l1 }, fs)
  else if k = .char 'l' then some (a.updateStatus .picked, fs)
  else some (a, fs)

/-- Model of `App::picked` (the Ordered-state handler). -/
def App.pickedStep (a : App) (fs : FS) (k : Key) : Option (App × FS) :=
  if k = .char 'q' then some (a.updateStatus .askQuit, fs)
  else if k = .char 'i' ∨ k = .up then
    let a1 := a.updateStatus .picked
    if a1.selected_idx ≠ 0 then
      match swap_with_value a1.page_list a1.selected_idx .prev with
      | (_, some _) => none
      | (l1, none) =>
        some ({ a1 with page_list := l1, selected_idx := a1.selected_idx - 1 }, fs)
    else some (a1, fs)
  else if k = .char 'k' ∨ k = .down then
    let a1 := a.updateStatus .picked
    if a1.selected_idx ≠ usizePred a1.page_list.length then
      match swap_with_value a1.page_list a1.selected_idx .next with
      | (_, some _) => none
      | (l1, none) =>
        some ({ a1 with page_list := l1, selected_idx := a1.selected_idx + 1 }, fs)
    else some (a1, fs)
  else if k = .char 'j' then some (a.updateStatus .unpicked, fs)
  else some (a, fs)

/-- Model of `App::ask_quit` (src/app.rs lines 213-218). -/
def App.askQuitStep (a : App) (fs : FS) (k : Key) : Option (App × FS) :=
  if k = .char 'Y' then some (a.updateStatus .quit, fs)
  else some (a.updateStatus a.previous_status, fs)

/-- Model of `App::ask_save` (src/app.rs lines 220-230): on `Y`, substitute the
values into every page's front matter, persist, then terminate; on anything
else return to the remembered state. -/
def App.askSaveStep (a : App) (fs : FS) (k : Key) : Option (App × FS) :=
  if k = .char 'Y' then
    match substituteValueList a.key a.page_list with
    | none => none
    | some l1 =>
      match overwriteFrontmatterList l1 fs with
      | none => none
      | some fs1 => some (({ a with page_list := l1 }).updateStatus .quit, fs1)
  else some (a.updateStatus a.previous_status, fs)

/-- Model of `App::transition`: dispatch on the current state; the `Quit` state
is unreachable in the source (`unreachable!()`), modelled as a trap. -/
def App.transition (a : App) (fs : FS) (k : Key) : Option (App × FS) :=
  match a.current_status with
  | .unpicked => a.unpickedStep fs k
  | .picked => a.pickedStep fs k
  | .askQuit => a.askQuitStep fs k
  | .askSave => a.askSaveStep fs k
  | .quit => none

/--
C9: in the confirmation states the uppercase `Y` input terminates the
controller — with `askSave` first substituting the values into the front
matter and then persisting — and every other input returns to the remembered
previous state; in all these transitions except the save itself the collection
and the file system are untouched (`updateStatus` only changes the two status
fields).
-/
theorem confirm_states_spec (a : App) (fs : FS) (k : Key) :
    (a.current_status = Status.askQuit →
      (k = Key.char 'Y' → a.transition fs k = some (a.updateStatus Status.quit, fs)) ∧
      (k ≠ Key.char 'Y' → a.transition fs k = some (a.updateStatus a.previous_status, fs)))
    ∧ (a.current_status = Status.askSave →
      (k ≠ Key.char 'Y' → a.transition fs k = some (a.updateStatus a.previous_status, fs)) ∧
      (k = Key.char 'Y' → ∀ l1 fs1, substituteValueList a.key a.page_list = some l1 →
        overwriteFrontmatterList l1 fs = some fs1 →
        a.transition fs k = some (({ a with page_list := l1 }).updateStatus Status.quit, fs1)))
    ∧ (∀ s, (a.updateStatus s).page_list = a.page_list) := by
  refine ⟨?_, ?_, fun s => rfl⟩
  · intro hcur
    have ht : a.transition fs k = a.askQuitStep fs k := by
      unfold App.transition
      rw [hcur]
    constructor
    · intro hk
      rw [ht]
      unfold App.askQuitStep
      rw [if_pos hk]
    · intro hk
      rw [ht]
      unfold App.askQuitStep
      rw [if_neg hk]
  · intro hcur
    have ht : a.transition fs k = a.askSaveStep fs k := by
      unfold App.transition
      rw [hcur]
    constructor
    · intro hk
      rw [ht]
      unfold App.askSaveStep
      rw [if_neg hk]
    · intro hk l1 fs1 hsub hov
      rw [ht]
      unfold App.askSaveStep
      rw [if_pos hk, hsub]
      show (match overwriteFrontmatterList l1 fs with
          | none => none
          | some fs2 => some (({ a with page_list := l1 }).updateStatus Status.quit, fs2)) =
        some (({ a with page_list := l1 }).updateStatus Status.quit, fs1)
      rw [hov]

def appAskQuit : App :=
  { page_list := demoPair, key := "k", selected_idx := 0,
    current_status := .askQuit, previous_status := .picked }

def appAskSave : App :=
  { page_list := [mkPage "a" (some 0)], key := "k", selected_idx := 0,
    current_status := .askSave, previous_status := .unpicked }

/-- The collection of `appAskSave` after `substitute_value`. -/
def appAskSaveSubbed : List Page :=
  [{ mkPage "a" (some 0) with yaml := Yaml.hash [("k", Yaml.int 0)] }]

/-- Witness for C9: confirming the quit prompt with `Y`, cancelling it with any
other key, and confirming the save prompt with `Y` on a concrete app and file
system. -/
theorem confirm_states_spec_witness :
    appAskQuit.transition [] (Key.char 'Y') =
      some (appAskQuit.updateStatus Status.quit, []) ∧
    appAskQuit.transition [] Key.up =
      some (appAskQuit.updateStatus appAskQuit.previous_status, []) ∧
    appAskSave.transition [] (Key.char 'Y') =
      some (({ appAskSave with page_list := appAskSaveSubbed }).updateStatus Status.quit, []) :=
  ⟨((confirm_states_spec appAskQuit [] (Key.char 'Y')).1 rfl).1 rfl,
   ((confirm_states_spec appAskQuit [] Key.up).1 rfl).2 (by decide),
   ((confirm_states_spec appAskSave [] (Key.char 'Y')).2.1 rfl).2 rfl
     appAskSaveSubbed [] rfl rfl⟩

end OrderInYaml
